import Mathlib

/-
Verification of the coverage aggregation-and-classification engine of the
`legendary` tool (Go).  The Go source is embedded shallowly:

  * `result`, `context`               mirror the `result` / `context` structs;
  * `addBlock`, `ingestProfiles`,
    `ingestCoverageFile`, `ingestAll` mirror `ingestCoverageFile` and the
                                      ingestion loop of `collectCoverageContext`;
  * `lineClass`, `buildFileCoverage`,
    `classifyLoop`                    mirror `buildFileCoverage` and the
                                      classification loop of `collectCoverageContext`;
  * `hitlistRows`                     mirrors the row loop of `printHitlist`;
  * `linesSortSpec`, `pctSortSpec`    are relational models of the external
                                      `sort.Sort(sort.Reverse(...))` calls.

External collaborators (the cover-profile parser, `filepath.Join`/`filepath.Rel`
canonicalization, and `os.Open` + `lineCounter` on the real file system) are
abstracted as function parameters (`parse`, `canon`, `fileLines`), exactly at
the failure granularity of the Go code: `none` models the error return.

Go `map[string]*result` and `map[int]int` are modelled as functions into
`Option`; `map[int]int`'s "absent key" is `none`, which the Go code keeps
distinct from "present with value 0".  Line numbers and execution counts
(`int` in Go, non-negative in every well-formed cover profile) are modelled
as `Nat`.
-/

namespace Legendary

/-- A coverage block as delivered by `cover.ParseProfiles`, restricted to the
fields the program reads: `StartLine`, `EndLine` (inclusive) and `Count`. -/
structure Block where
  startLine : Nat
  endLine : Nat
  count : Nat
deriving DecidableEq

/-- One per-file record of a parsed profile (`cover.Profile`): the reported
file name and its blocks. -/
structure Profile where
  fileName : String
  blocks : List Block

/-- Model of a Go `float64` value as far as this program computes them:
either NaN, positive infinity, or an exact rational.  Rounding is not
modelled; the two divisions at issue (`0/0` and `m/(h+m)` with `h+m > 0`)
have rounding-independent properties (NaN-ness, membership in `[0,1]`,
since `0` and `1` are exactly representable and rounding is monotone). -/
inductive FloatVal where
  | nan : FloatVal
  | inf : FloatVal
  | val : ℚ → FloatVal
deriving DecidableEq

/-- Go `float64(a) / float64(b)` for non-negative integer operands:
IEEE-754 gives NaN for `0/0`, `+Inf` for `a/0` with `a > 0`, and the
(rounded) quotient otherwise. -/
def fdiv (a b : Nat) : FloatVal :=
  if b = 0 then (if a = 0 then FloatVal.nan else FloatVal.inf)
  else FloatVal.val ((a : ℚ) / (b : ℚ))

/-- The `result` struct: canonical file name, real line count, the per-line
cumulative execution counts (`map[int]int`, absent key = `none`), and the
three classified index sequences. -/
structure result where
  filename : String
  lines : Nat
  counts : Nat → Option Nat
  Hits : List Nat
  Misses : List Nat
  Ignored : List Nat

/-- A fresh entry as created by `ingestCoverageFile`:
`&result{filename: rn, counts: make(map[int]int)}` (other fields are Go
zero values). -/
def emptyResult (rn : String) : result :=
  { filename := rn, lines := 0, counts := fun _ => none
    Hits := [], Misses := [], Ignored := [] }

/-- Method `(*result).MissCount`: `len(rz.Misses)`. -/
def result.MissCount (rz : result) : Nat := rz.Misses.length

/-- Method `(*result).HitCount`: `len(rz.Hits)`. -/
def result.HitCount (rz : result) : Nat := rz.Hits.length

/-- Method `(*result).MissFraction`:
`float64(mc) / float64(hc+mc)` with `hc, mc` the two counts above. -/
def result.MissFraction (rz : result) : FloatVal :=
  fdiv rz.MissCount (rz.HitCount + rz.MissCount)

/-- The Go `<` comparison on our `float64` model: any comparison against
NaN is false; finite values compare as rationals. -/
def fltLt : FloatVal → FloatVal → Bool
  | FloatVal.nan, _ => false
  | _, FloatVal.nan => false
  | FloatVal.inf, _ => false
  | FloatVal.val _, FloatVal.inf => true
  | FloatVal.val a, FloatVal.val b => decide (a < b)

/-- The rational carried by a non-NaN, non-infinite miss fraction
(`0` as a placeholder otherwise); used to state ordering facts about
hitlist outputs whose fractions are all defined. -/
def fracQ (rz : result) : ℚ :=
  match rz.MissFraction with
  | FloatVal.val q => q
  | _ => 0

/-- The `context` struct: timestamp and the results map
(`map[string]*result`, modelled as a function into `Option result`). -/
structure context where
  Now : Int
  Results : String → Option result

/-- Store `some v` at key `k` of a `map[int]int` model. -/
def mapUpdate (m : Nat → Option Nat) (k v : Nat) : Nat → Option Nat :=
  fun n => if n = k then some v else m n

/-- Store an entry in the results map (`ctx.Results[rn] = r`). -/
def setResult (R : String → Option result) (rn : String) (r : result) :
    String → Option result :=
  fun g => if g = rn then some r else R g

/-- The initial results map: `make(map[string]*result)`. -/
def emptyResults : String → Option result := fun _ => none

/-- The execution count recorded for line `ln` of canonical path `rn`
(`none` when the path or the line is absent). -/
def countAt (R : String → Option result) (rn : String) (ln : Nat) : Option Nat :=
  (R rn).bind (fun r => r.counts ln)

/-- The inner block loop of `ingestCoverageFile`:
`for ln := pb.StartLine; ln <= pb.EndLine; ln++ { r.counts[ln] += pb.Count }`.
A missing key reads as 0 and the sum is stored back (so the key becomes
present even when the sum is 0). -/
def addBlock (counts : Nat → Option Nat) (pb : Block) : Nat → Option Nat :=
  (List.range' pb.startLine (pb.endLine + 1 - pb.startLine)).foldl
    (fun m ln => mapUpdate m ln ((m ln).getD 0 + pb.count)) counts

/-- The per-profile loop of `ingestCoverageFile`.  `canon` abstracts
`filepath.Rel(projRoot, filepath.Join(coverageRoot, p.FileName))`; on a
`Rel` error the Go code logs and `return`s, abandoning the remaining
profiles of this coverage file with the map as accumulated so far. -/
def ingestProfiles (canon : String → Option String)
    (R : String → Option result) : List Profile → (String → Option result)
  | [] => R
  | p :: ps =>
    match canon p.fileName with
    | none => R
    | some rn =>
      let r := (R rn).getD (emptyResult rn)
      ingestProfiles canon
        (setResult R rn { r with counts := p.blocks.foldl addBlock r.counts }) ps

/-- Function `ingestCoverageFile`: `parse` abstracts `cover.ParseProfiles`;
a parse error logs and returns with the map unchanged. -/
def ingestCoverageFile (parse : String → Option (List Profile))
    (canon : String → Option String)
    (R : String → Option result) (fp : String) : String → Option result :=
  match parse fp with
  | none => R
  | some ps => ingestProfiles canon R ps

/-- The ingestion loop of `collectCoverageContext`:
`for _, fp := range sourceFiles { ingestCoverageFile(...) }`. -/
def ingestAll (parse : String → Option (List Profile))
    (canon : String → Option String)
    (R : String → Option result) (fps : List String) : String → Option result :=
  fps.foldl (ingestCoverageFile parse canon) R

/-- One iteration of the classification loop of `buildFileCoverage`:
the `switch` sends an absent line to `Ignored`, a present line with
positive count to `Hits`, and a present line with count 0 to `Misses`. -/
def lineClass (r : result) (ln : Nat) : result :=
  match r.counts ln with
  | none => { r with Ignored := r.Ignored ++ [ln] }
  | some c =>
    if c > 0 then { r with Hits := r.Hits ++ [ln] }
    else { r with Misses := r.Misses ++ [ln] }

/-- Function `buildFileCoverage`.  `fileLines` abstracts
`os.Open(filepath.Join(projRoot, f))` followed by `lineCounter`; `none`
models failure of either step, upon which the Go code deletes the entry
from `ctx.Results` (modelled by returning `none`).  On success `r.lines`
is set and every index `0 <= ln < lines` is classified. -/
def buildFileCoverage (fileLines : String → Option Nat) (f : String)
    (r : result) : Option result :=
  match fileLines f with
  | none => none
  | some lines => some ((List.range lines).foldl lineClass { r with lines := lines })

/-- The classification loop of `collectCoverageContext`:
`for f, r := range ctx.Results { buildFileCoverage(&ctx, projRoot, f, r) }`.
Go iterates the map in unspecified order; the order is taken here as an
explicit key list (theorems require it to enumerate the domain once). -/
def classifyLoop (fileLines : String → Option Nat)
    (R : String → Option result) : List String → (String → Option result)
  | [] => R
  | f :: keys =>
    match R f with
    | none => classifyLoop fileLines R keys
    | some r =>
      match buildFileCoverage fileLines f r with
      | none => classifyLoop fileLines (fun g => if g = f then none else R g) keys
      | some r2 => classifyLoop fileLines (setResult R f r2) keys

/-- Function `collectCoverageContext` (its `time.Now().Unix()` is passed in
as `now`; `keys` is the unspecified map iteration order of the
classification loop). -/
def collectCoverageContext (parse : String → Option (List Profile))
    (canon : String → Option String) (fileLines : String → Option Nat)
    (now : Int) (sourceFiles keys : List String) : context :=
  { Now := now
    Results := classifyLoop fileLines (ingestAll parse canon emptyResults sourceFiles) keys }

/-- Relational contract of `sort.Sort(sort.Reverse(resultsByLines(...)))`
in `printHitlist`: `sort.Sort` guarantees a permutation of its input that
is sorted in the sense of `sort.IsSorted` — no adjacent pair violates the
(reversed) `Less`, i.e. `!(a.MissCount() < b.MissCount())` for each
consecutive `a, b`.  `sort.Sort` is documented as NOT stable, so nothing
beyond this relation is guaranteed about the output order. -/
def linesSortSpec (input output : List result) : Prop :=
  input.Perm output ∧
    List.Chain' (fun a b => ¬(a.MissCount < b.MissCount)) output

/-- Relational contract of `sort.Sort(sort.Reverse(resultsByPercentage(...)))`,
with `Less` comparing `MissFraction()` as Go `float64` `<`. -/
def pctSortSpec (input output : List result) : Prop :=
  input.Perm output ∧
    List.Chain' (fun a b => fltLt a.MissFraction b.MissFraction = false) output

/-- The pairing loop of `printHitlist`:
`rps = append(rps, [2]*result{rs[i], ps[i]})` for `i := range rs`. -/
def hitlistPairs (rs ps : List result) : List (result × result) := rs.zip ps

/-- The output loop of `printHitlist`:
`if limit == 0 { limit = len(rps) }; for i := 0; i < limit; i++ { ... rps[i] ... }`.
Indexing `rps[i]` with `i >= len(rps)` panics; the panic is modelled as
`none`, a normal run as `some` of the emitted rows. -/
def hitlistRows (rps : List (result × result)) (limit : Nat) :
    Option (List (result × result)) :=
  let lim := if limit = 0 then rps.length else limit
  if lim ≤ rps.length then some (rps.take lim) else none

/-- Touch test for a single block: does `[startLine, endLine]` cover `ln`
(and if so, with which count)? -/
def blockDelta (pb : Block) (ln : Nat) : Option Nat :=
  if pb.startLine ≤ ln ∧ ln ≤ pb.endLine then some pb.count else none

/-- Combine two optional contributions: `none` means "line not touched". -/
def optAdd : Option Nat → Option Nat → Option Nat
  | none, b => b
  | some a, none => some a
  | some a, some b => some (a + b)

/-- Apply an optional contribution to a stored optional count: an untouched
line keeps its entry; a touched line becomes present with the old value
(default 0) plus the contribution. -/
def applyDelta (o d : Option Nat) : Option Nat :=
  match d with
  | none => o
  | some k => some (o.getD 0 + k)

/-- Total contribution of a block list to line `ln`. -/
def blocksDelta : List Block → Nat → Option Nat
  | [], _ => none
  | pb :: rest, ln => optAdd (blockDelta pb ln) (blocksDelta rest ln)

/-- Does the (canonicalization-truncated) profile list create or touch the
entry for canonical path `rn`? -/
def profilesTouch (canon : String → Option String) : List Profile → String → Bool
  | [], _ => false
  | p :: ps, rn =>
    match canon p.fileName with
    | none => false
    | some rn2 => decide (rn2 = rn) || profilesTouch canon ps rn

/-- Total contribution of the (canonicalization-truncated) profile list to
line `ln` of canonical path `rn`. -/
def profilesDelta (canon : String → Option String) :
    List Profile → String → Nat → Option Nat
  | [], _, _ => none
  | p :: ps, rn, ln =>
    match canon p.fileName with
    | none => none
    | some rn2 =>
      optAdd (if rn2 = rn then blocksDelta p.blocks ln else none)
        (profilesDelta canon ps rn ln)

/-- Touch test for one coverage file (parse failure touches nothing). -/
def fileTouch (parse : String → Option (List Profile))
    (canon : String → Option String) (fp : String) (rn : String) : Bool :=
  match parse fp with
  | none => false
  | some ps => profilesTouch canon ps rn

/-- Contribution of one coverage file. -/
def fileDelta (parse : String → Option (List Profile))
    (canon : String → Option String) (fp : String) (rn : String) (ln : Nat) :
    Option Nat :=
  match parse fp with
  | none => none
  | some ps => profilesDelta canon ps rn ln

/-- Touch test for a list of coverage files. -/
def filesTouch (parse : String → Option (List Profile))
    (canon : String → Option String) : List String → String → Bool
  | [], _ => false
  | fp :: fps, rn => fileTouch parse canon fp rn || filesTouch parse canon fps rn

/-- Contribution of a list of coverage files. -/
def filesDelta (parse : String → Option (List Profile))
    (canon : String → Option String) : List String → String → Nat → Option Nat
  | [], _, _ => none
  | fp :: fps, rn, ln =>
    optAdd (fileDelta parse canon fp rn ln) (filesDelta parse canon fps rn ln)

/-- Effect of one ingestion round on the entry stored at `rn`: an existing
entry gets its counts bumped by the contribution `d`; a missing entry is
created (with `filename = rn` and empty classification lists) exactly when
the round touches `rn`. -/
def entryStep (rn : String) (t : Bool) (d : Nat → Option Nat)
    (o : Option result) : Option result :=
  match o with
  | some r => some { r with counts := fun ln => applyDelta (r.counts ln) (d ln) }
  | none =>
    if t then some { emptyResult rn with counts := fun ln => applyDelta none (d ln) }
    else none

/-- Line `ln` classifies as a hit: present in the counts with positive count. -/
def isHit (c : Nat → Option Nat) (ln : Nat) : Bool :=
  match c ln with
  | some k => decide (k > 0)
  | none => false

/-- Line `ln` classifies as a miss: present in the counts with count 0. -/
def isMiss (c : Nat → Option Nat) (ln : Nat) : Bool :=
  match c ln with
  | some k => decide (k = 0)
  | none => false

/-- Line `ln` classifies as ignored: absent from the counts. -/
def isIgnored (c : Nat → Option Nat) (ln : Nat) : Bool :=
  (c ln).isNone

/-- Concrete line-count oracle for witnesses: "a.go" has 3 lines. -/
def flW : String → Option Nat := fun f => if f = "a.go" then some 3 else none

/-- Concrete tally for witnesses: line 0 hit twice, line 1 present with
count 0, line 5 (beyond the 3-line file) counted 7 times. -/
def tallyW : result :=
  { filename := "a.go", lines := 0
    counts := fun ln =>
      if ln = 0 then some 2 else if ln = 1 then some 0
      else if ln = 5 then some 7 else none
    Hits := [], Misses := [], Ignored := [] }

/-- The classified result of `tallyW` under `flW`. -/
def classW : result := (buildFileCoverage flW "a.go" tallyW).getD (emptyResult "x")

/-- Line-count oracle reporting an empty (0-line) file for every path. -/
def flZ : String → Option Nat := fun _ => some 0

/-- A classified result with no hits and no misses (0-line source file). -/
def resZ : result :=
  (buildFileCoverage flZ "z.go" (emptyResult "z.go")).getD (emptyResult "x")

/-- Concrete result with one missed line (for the ranking claims). -/
def raW : result :=
  { filename := "a.go", lines := 1, counts := fun _ => none
    Hits := [], Misses := [0], Ignored := [] }

/-- As `raW` with a distinct file name: same missCount key. -/
def rbW : result :=
  { filename := "b.go", lines := 1, counts := fun _ => none
    Hits := [], Misses := [0], Ignored := [] }

/-- Concrete fully-hit result: its miss fraction is the defined value 0/1. -/
def rcW : result :=
  { filename := "c.go", lines := 1
    counts := fun ln => if ln = 0 then some 1 else none
    Hits := [0], Misses := [], Ignored := [] }

/-- Concrete all-ignored result: no hits and no misses, so its miss
fraction is the undefined 0/0 (NaN). -/
def rnanW : result :=
  { filename := "n.go", lines := 1, counts := fun _ => none
    Hits := [], Misses := [], Ignored := [0] }

/-- Concrete coverage-profile parser for ingestion witnesses. -/
def parseW : String → Option (List Profile) :=
  fun fp =>
    if fp = "cov1" then
      some [{ fileName := "m.go"
              blocks := [{ startLine := 0, endLine := 1, count := 1 }] }]
    else if fp = "cov2" then
      some [{ fileName := "n.go"
              blocks := [{ startLine := 0, endLine := 0, count := 0 }] }]
    else none

/-- Concrete canonicalizer (identity) for ingestion witnesses. -/
def canonW : String → Option String := fun s => some s

/-- Line-count oracle for the error-handling witness: "bad.go" unreadable,
everything else one line long. -/
def flE : String → Option Nat := fun f => if f = "bad.go" then none else some 1

/-- Concrete results map holding entries for "bad.go" and "ok.go". -/
def mapE : String → Option result :=
  fun f =>
    if f = "bad.go" then some (emptyResult "bad.go")
    else if f = "ok.go" then some (emptyResult "ok.go") else none

theorem range'_fold_apply (k : Nat) :
    ∀ (len start : Nat) (c : Nat → Option Nat) (n : Nat),
      (List.range' start len).foldl
          (fun m ln => mapUpdate m ln ((m ln).getD 0 + k)) c n
        = if start ≤ n ∧ n < start + len then some ((c n).getD 0 + k) else c n := by
  intro len
  induction len with
  | zero =>
    intro start c n
    rw [if_neg (by omega : ¬(start ≤ n ∧ n < start + 0))]
    rfl
  | succ m ih =>
    intro start c n
    rw [List.range'_succ, List.foldl_cons, ih]
    by_cases h1 : start + 1 ≤ n ∧ n < start + 1 + m
    · rw [if_pos h1, if_pos (by omega : start ≤ n ∧ n < start + (m + 1))]
      have h3 : ¬(n = start) := by omega
      simp [mapUpdate, h3]
    · by_cases h4 : n = start
      · rw [if_neg h1, h4,
          if_pos (by omega : start ≤ start ∧ start < start + (m + 1))]
        simp [mapUpdate]
      · rw [if_neg h1, if_neg (by omega : ¬(start ≤ n ∧ n < start + (m + 1)))]
        simp [mapUpdate, h4]

theorem addBlock_apply (c : Nat → Option Nat) (pb : Block) (n : Nat) :
    addBlock c pb n = applyDelta (c n) (blockDelta pb n) := by
  unfold addBlock blockDelta
  rw [range'_fold_apply]
  by_cases h1 : pb.startLine ≤ n ∧ n < pb.startLine + (pb.endLine + 1 - pb.startLine)
  · have h2 : pb.startLine ≤ n ∧ n ≤ pb.endLine := by omega
    simp [h1, h2, applyDelta]
  · have h2 : ¬(pb.startLine ≤ n ∧ n ≤ pb.endLine) := by omega
    simp [h1, h2, applyDelta]

theorem applyDelta_applyDelta (o a b : Option Nat) :
    applyDelta (applyDelta o a) b = applyDelta o (optAdd a b) := by
  cases a <;> cases b <;> simp [applyDelta, optAdd, Nat.add_assoc]

theorem foldl_addBlock_apply (bs : List Block) :
    ∀ (c : Nat → Option Nat) (n : Nat),
      (bs.foldl addBlock c) n = applyDelta (c n) (blocksDelta bs n) := by
  induction bs with
  | nil => intro c n; simp [blocksDelta, applyDelta]
  | cons pb rest ih =>
    intro c n
    rw [List.foldl_cons, ih, addBlock_apply, applyDelta_applyDelta]
    simp [blocksDelta]

theorem foldl_addBlock_funext (bs : List Block) (c : Nat → Option Nat) :
    bs.foldl addBlock c = fun n => applyDelta (c n) (blocksDelta bs n) :=
  funext (fun n => foldl_addBlock_apply bs c n)

theorem entryStep_false_none (rn : String) (d : Nat → Option Nat)
    (o : Option result) (h : ∀ ln, d ln = none) :
    entryStep rn false d o = o := by
  cases o with
  | none => simp [entryStep]
  | some r =>
    simp only [entryStep, Option.some.injEq]
    have hc : (fun ln => applyDelta (r.counts ln) (d ln)) = r.counts := by
      funext ln; rw [h ln]; rfl
    rw [hc]

theorem entryStep_comp (rn : String) (t1 t2 : Bool) (d1 d2 : Nat → Option Nat)
    (o : Option result) (h : t1 = false → ∀ ln, d1 ln = none) :
    entryStep rn t2 d2 (entryStep rn t1 d1 o)
      = entryStep rn (t1 || t2) (fun ln => optAdd (d1 ln) (d2 ln)) o := by
  cases o with
  | some r => simp [entryStep, applyDelta_applyDelta]
  | none =>
    cases t1 with
    | true => simp [entryStep, applyDelta_applyDelta]
    | false =>
      have hd : ∀ ln, d1 ln = none := h rfl
      simp [entryStep, hd, optAdd]

theorem profilesTouch_eq_false (canon : String → Option String) :
    ∀ (ps : List Profile) (rn : String),
      profilesTouch canon ps rn = false →
      ∀ ln, profilesDelta canon ps rn ln = none := by
  intro ps
  induction ps with
  | nil => intro rn _ ln; rfl
  | cons p rest ih =>
    intro rn h ln
    cases hc : canon p.fileName with
    | none => simp [profilesDelta, hc]
    | some rn2 =>
      simp only [profilesTouch, hc, Bool.or_eq_false_iff, decide_eq_false_iff_not] at h
      simp only [profilesDelta, hc, if_neg h.1]
      rw [ih rn h.2 ln]
      rfl

theorem ingestProfiles_char (canon : String → Option String) :
    ∀ (ps : List Profile) (R : String → Option result) (rn : String),
      ingestProfiles canon R ps rn
        = entryStep rn (profilesTouch canon ps rn)
            (fun ln => profilesDelta canon ps rn ln) (R rn) := by
  intro ps
  induction ps with
  | nil =>
    intro R rn
    simp only [ingestProfiles, profilesTouch]
    rw [entryStep_false_none]
    intro ln; rfl
  | cons p rest ih =>
    intro R rn
    cases hc : canon p.fileName with
    | none =>
      simp only [ingestProfiles, hc, profilesTouch]
      rw [entryStep_false_none]
      intro ln; simp [profilesDelta, hc]
    | some rn2 =>
      simp only [ingestProfiles, hc]
      rw [ih]
      have hset :
          setResult R rn2
              { (R rn2).getD (emptyResult rn2) with
                counts := p.blocks.foldl addBlock ((R rn2).getD (emptyResult rn2)).counts } rn
            = entryStep rn (decide (rn2 = rn))
                (fun ln => if rn2 = rn then blocksDelta p.blocks ln else none) (R rn) := by
        by_cases h : rn2 = rn
        · subst h
          have hdec : decide (rn2 = rn2) = true := decide_eq_true rfl
          rw [hdec]
          have hif : (fun ln => if rn2 = rn2 then blocksDelta p.blocks ln else none)
              = fun ln => blocksDelta p.blocks ln := by
            funext ln; rw [if_pos rfl]
          rw [hif]
          simp only [setResult]
          simp only [eq_self_iff_true, if_true]
          cases hR : R rn2 with
          | none =>
            simp only [hR, Option.getD_none, entryStep]
            rw [foldl_addBlock_funext]
            rfl
          | some r =>
            simp only [hR, Option.getD_some, entryStep]
            rw [foldl_addBlock_funext]
        · have h2 : ¬(rn = rn2) := fun hx => h hx.symm
          rw [decide_eq_false h]
          simp only [setResult, if_neg h2]
          rw [entryStep_false_none]
          intro ln
          exact if_neg h
      rw [hset, entryStep_comp]
      · have ht : profilesTouch canon (p :: rest) rn
            = (decide (rn2 = rn) || profilesTouch canon rest rn) := by
          simp [profilesTouch, hc]
        have hd : (fun ln => profilesDelta canon (p :: rest) rn ln)
            = (fun ln => optAdd (if rn2 = rn then blocksDelta p.blocks ln else none)
                (profilesDelta canon rest rn ln)) := by
          funext ln
          simp [profilesDelta, hc]
        rw [ht, hd]
      · intro hfalse ln
        rw [if_neg (by simpa using hfalse)]

theorem fileTouch_eq_false (parse : String → Option (List Profile))
    (canon : String → Option String) (fp rn : String)
    (h : fileTouch parse canon fp rn = false) :
    ∀ ln, fileDelta parse canon fp rn ln = none := by
  intro ln
  unfold fileTouch at h
  unfold fileDelta
  cases hp : parse fp with
  | none => rfl
  | some ps =>
    rw [hp] at h
    exact profilesTouch_eq_false canon ps rn h ln

theorem ingestCoverageFile_char (parse : String → Option (List Profile))
    (canon : String → Option String) (fp : String)
    (R : String → Option result) (rn : String) :
    ingestCoverageFile parse canon R fp rn
      = entryStep rn (fileTouch parse canon fp rn)
          (fun ln => fileDelta parse canon fp rn ln) (R rn) := by
  unfold ingestCoverageFile fileTouch fileDelta
  cases hp : parse fp with
  | none =>
    rw [entryStep_false_none]
    intro ln; rfl
  | some ps => exact ingestProfiles_char canon ps R rn

theorem ingestAll_char (parse : String → Option (List Profile))
    (canon : String → Option String) :
    ∀ (fps : List String) (R : String → Option result) (rn : String),
      ingestAll parse canon R fps rn
        = entryStep rn (filesTouch parse canon fps rn)
            (fun ln => filesDelta parse canon fps rn ln) (R rn) := by
  intro fps
  induction fps with
  | nil =>
    intro R rn
    rw [show filesTouch parse canon [] rn = false from rfl]
    rw [entryStep_false_none]
    · rfl
    · intro ln; rfl
  | cons fp rest ih =>
    intro R rn
    show ingestAll parse canon (ingestCoverageFile parse canon R fp) rest rn = _
    rw [ih, ingestCoverageFile_char, entryStep_comp]
    · rfl
    · exact fun hfalse => fileTouch_eq_false parse canon fp rn hfalse



theorem optAdd_left_comm (a b c : Option Nat) :
    optAdd a (optAdd b c) = optAdd b (optAdd a c) := by
  cases a <;> cases b <;> cases c <;> simp [optAdd] <;> omega

theorem filesTouch_perm (parse : String → Option (List Profile))
    (canon : String → Option String) {fps1 fps2 : List String}
    (h : fps1.Perm fps2) (rn : String) :
    filesTouch parse canon fps1 rn = filesTouch parse canon fps2 rn := by
  induction h with
  | nil => rfl
  | cons x h ih => simp [filesTouch, ih]
  | swap x y l =>
    simp only [filesTouch]
    cases fileTouch parse canon x rn <;> cases fileTouch parse canon y rn <;> simp
  | trans h1 h2 ih1 ih2 => rw [ih1, ih2]

theorem filesDelta_perm (parse : String → Option (List Profile))
    (canon : String → Option String) {fps1 fps2 : List String}
    (h : fps1.Perm fps2) (rn : String) (ln : Nat) :
    filesDelta parse canon fps1 rn ln = filesDelta parse canon fps2 rn ln := by
  induction h with
  | nil => rfl
  | cons x h ih => simp [filesDelta, ih]
  | swap x y l =>
    simp only [filesDelta]
    exact optAdd_left_comm _ _ _
  | trans h1 h2 ih1 ih2 => rw [ih1, ih2]

theorem lineClass_counts (r : result) (ln : Nat) :
    (lineClass r ln).counts = r.counts := by
  unfold lineClass
  cases r.counts ln with
  | none => rfl
  | some c => by_cases h : c > 0 <;> simp [h]

theorem foldl_lineClass_char : ∀ (l : List Nat) (r : result),
    l.foldl lineClass r
      = { r with Hits := r.Hits ++ l.filter (isHit r.counts),
                 Misses := r.Misses ++ l.filter (isMiss r.counts),
                 Ignored := r.Ignored ++ l.filter (isIgnored r.counts) } := by
  intro l
  induction l with
  | nil => intro r; simp
  | cons ln rest ih =>
    intro r
    rw [List.foldl_cons, ih]
    cases hc : r.counts ln with
    | none =>
      have hl : lineClass r ln = { r with Ignored := r.Ignored ++ [ln] } := by
        unfold lineClass; rw [hc]
      have hh : isHit r.counts ln = false := by simp [isHit, hc]
      have hm : isMiss r.counts ln = false := by simp [isMiss, hc]
      have hi : isIgnored r.counts ln = true := by simp [isIgnored, hc]
      rw [hl]
      simp [List.filter_cons, hh, hm, hi]
    | some c =>
      have hi : isIgnored r.counts ln = false := by simp [isIgnored, hc]
      rcases Nat.eq_zero_or_pos c with h0 | hpos
      · subst h0
        have hl : lineClass r ln = { r with Misses := r.Misses ++ [ln] } := by
          unfold lineClass; rw [hc]; simp
        have hh : isHit r.counts ln = false := by simp [isHit, hc]
        have hm : isMiss r.counts ln = true := by simp [isMiss, hc]
        rw [hl]
        simp [List.filter_cons, hh, hm, hi]
      · have hl : lineClass r ln = { r with Hits := r.Hits ++ [ln] } := by
          unfold lineClass; rw [hc]; simp [hpos]
        have hh : isHit r.counts ln = true := by
          simp [isHit, hc]; omega
        have hm : isMiss r.counts ln = false := by
          simp [isMiss, hc]; omega
        rw [hl]
        simp [List.filter_cons, hh, hm, hi]

theorem buildFileCoverage_char (fileLines : String → Option Nat) (f : String)
    (r : result) (n : Nat) (hfl : fileLines f = some n) :
    buildFileCoverage fileLines f r
      = some { r with lines := n,
                      Hits := r.Hits ++ (List.range n).filter (isHit r.counts),
                      Misses := r.Misses ++ (List.range n).filter (isMiss r.counts),
                      Ignored := r.Ignored ++ (List.range n).filter (isIgnored r.counts) } := by
  unfold buildFileCoverage
  rw [hfl]
  change some ((List.range n).foldl lineClass { r with lines := n }) = _
  rw [foldl_lineClass_char]

theorem classifyLoop_char (fileLines : String → Option Nat) :
    ∀ (keys : List String) (R : String → Option result), keys.Nodup → ∀ g,
      classifyLoop fileLines R keys g
        = if g ∈ keys then (R g).bind (buildFileCoverage fileLines g) else R g := by
  intro keys
  induction keys with
  | nil => intro R _ g; simp [classifyLoop]
  | cons f rest ih =>
    intro R hnd g
    have hf : f ∉ rest := (List.nodup_cons.mp hnd).1
    have hrest : rest.Nodup := (List.nodup_cons.mp hnd).2
    cases hR : R f with
    | none =>
      have hstep : classifyLoop fileLines R (f :: rest) g
          = classifyLoop fileLines R rest g := by
        simp only [classifyLoop, hR]
      rw [hstep, ih R hrest g]
      by_cases hg : g = f
      · subst hg
        simp [hf, List.mem_cons, hR]
      · simp [List.mem_cons, hg]
    | some r =>
      cases hB : buildFileCoverage fileLines f r with
      | none =>
        have hstep : classifyLoop fileLines R (f :: rest) g
            = classifyLoop fileLines (fun x => if x = f then none else R x) rest g := by
          simp only [classifyLoop, hR, hB]
        rw [hstep, ih _ hrest g]
        by_cases hg : g = f
        · subst hg
          simp [hf, hR, hB]
        · simp [List.mem_cons, hg]
      | some r2 =>
        have hstep : classifyLoop fileLines R (f :: rest) g
            = classifyLoop fileLines (setResult R f r2) rest g := by
          simp only [classifyLoop, hR, hB]
        rw [hstep, ih _ hrest g]
        by_cases hg : g = f
        · subst hg
          simp [hf, setResult, hR, hB]
        · simp [List.mem_cons, hg, setResult]

theorem filter_three_length (c : Nat → Option Nat) : ∀ l : List Nat,
    (l.filter (isHit c)).length + (l.filter (isMiss c)).length
      + (l.filter (isIgnored c)).length = l.length := by
  intro l
  induction l with
  | nil => rfl
  | cons a t ih =>
    cases hc : c a with
    | none =>
      have hh : isHit c a = false := by simp [isHit, hc]
      have hm : isMiss c a = false := by simp [isMiss, hc]
      have hi : isIgnored c a = true := by simp [isIgnored, hc]
      simp [List.filter_cons, hh, hm, hi] <;> omega
    | some k =>
      have hi : isIgnored c a = false := by simp [isIgnored, hc]
      rcases Nat.eq_zero_or_pos k with h0 | hpos
      · subst h0
        have hh : isHit c a = false := by simp [isHit, hc]
        have hm : isMiss c a = true := by simp [isMiss, hc]
        simp [List.filter_cons, hh, hm, hi] <;> omega
      · have hh : isHit c a = true := by simp [isHit, hc] <;> omega
        have hm : isMiss c a = false := by simp [isMiss, hc] <;> omega
        simp [List.filter_cons, hh, hm, hi] <;> omega

theorem classPred_trichotomy (c : Nat → Option Nat) (ln : Nat) :
    (isHit c ln = true ∨ isMiss c ln = true ∨ isIgnored c ln = true)
    ∧ ¬(isHit c ln = true ∧ isMiss c ln = true)
    ∧ ¬(isHit c ln = true ∧ isIgnored c ln = true)
    ∧ ¬(isMiss c ln = true ∧ isIgnored c ln = true) := by
  cases hc : c ln with
  | none => simp [isHit, isMiss, isIgnored, hc]
  | some k =>
    rcases Nat.eq_zero_or_pos k with h0 | hpos
    · subst h0
      simp [isHit, isMiss, isIgnored, hc]
    · simp [isHit, isMiss, isIgnored, hc]
      omega

theorem chainLe_pairwise {β : Type} [LinearOrder β] (key : result → β) :
    ∀ l : List result, List.Chain' (fun a b => key b ≤ key a) l →
      List.Pairwise (fun a b => key b ≤ key a) l := by
  intro l
  induction l with
  | nil => intro _; exact List.Pairwise.nil
  | cons a t ih =>
    intro h
    rcases List.chain'_cons'.mp h with ⟨hhead, htail⟩
    refine List.pairwise_cons.mpr ⟨?_, ih htail⟩
    intro x hx
    cases t with
    | nil => cases hx
    | cons b t2 =>
      have hab : key b ≤ key a := hhead b rfl
      have hpt := ih htail
      rcases List.mem_cons.mp hx with hxb | hxt
      · rw [hxb]; exact hab
      · exact le_trans ((List.pairwise_cons.mp hpt).1 x hxt) hab

theorem chainFlt_to_le : ∀ (l : List result),
    (∀ x ∈ l, ∃ q, x.MissFraction = FloatVal.val q) →
    List.Chain' (fun a b => fltLt a.MissFraction b.MissFraction = false) l →
    List.Chain' (fun a b => fracQ b ≤ fracQ a) l := by
  intro l
  induction l with
  | nil => intro _ _; simp
  | cons a t ih =>
    intro hval h
    rcases List.chain'_cons'.mp h with ⟨hhead, htail⟩
    refine List.chain'_cons'.mpr
      ⟨?_, ih (fun x hx => hval x (List.mem_cons_of_mem a hx)) htail⟩
    intro y hy
    have hyt : y ∈ t := List.mem_of_mem_head? hy
    rcases hval a (List.mem_cons_self a t) with ⟨qa, hqa⟩
    rcases hval y (List.mem_cons_of_mem a hyt) with ⟨qy, hqy⟩
    have hlt := hhead y hy
    rw [hqa, hqy] at hlt
    have hnlt : ¬(qa < qy) := by simpa [fltLt] using hlt
    have hle : qy ≤ qa := not_lt.mp hnlt
    unfold fracQ
    rw [hqa, hqy]
    exact hle

theorem buildFileCoverage_filename (fileLines : String → Option Nat) (f : String)
    (r x : result) (h : buildFileCoverage fileLines f r = some x) :
    x.filename = r.filename := by
  cases hfl : fileLines f with
  | none =>
    unfold buildFileCoverage at h
    rw [hfl] at h
    simp at h
  | some n =>
    rw [buildFileCoverage_char fileLines f r n hfl] at h
    have hx := Option.some.inj h
    rw [← hx]

theorem classifyLoop_filename (fileLines : String → Option Nat) :
    ∀ (keys : List String) (R : String → Option result) (rn : String),
      (∀ r, R rn = some r → r.filename = rn) →
      ∀ r2, classifyLoop fileLines R keys rn = some r2 → r2.filename = rn := by
  intro keys
  induction keys with
  | nil => intro R rn hinv r2 h; exact hinv r2 h
  | cons f rest ih =>
    intro R rn hinv r2 h
    cases hR : R f with
    | none =>
      have hstep : classifyLoop fileLines R (f :: rest) rn
          = classifyLoop fileLines R rest rn := by
        simp only [classifyLoop, hR]
      rw [hstep] at h
      exact ih R rn hinv r2 h
    | some r =>
      cases hB : buildFileCoverage fileLines f r with
      | none =>
        have hstep : classifyLoop fileLines R (f :: rest) rn
            = classifyLoop fileLines (fun x => if x = f then none else R x) rest rn := by
          simp only [classifyLoop, hR, hB]
        rw [hstep] at h
        refine ih _ rn ?_ r2 h
        intro r3 h3
        by_cases hx : rn = f
        · rw [if_pos hx] at h3; exact Option.noConfusion h3
        · rw [if_neg hx] at h3; exact hinv r3 h3
      | some r2b =>
        have hstep : classifyLoop fileLines R (f :: rest) rn
            = classifyLoop fileLines (setResult R f r2b) rest rn := by
          simp only [classifyLoop, hR, hB]
        rw [hstep] at h
        refine ih _ rn ?_ r2 h
        intro r3 h3
        unfold setResult at h3
        by_cases hx : rn = f
        · rw [if_pos hx] at h3
          have h4 := Option.some.inj h3
          rw [← h4, buildFileCoverage_filename fileLines f r r2b hB]
          exact hinv r (by rw [hx]; exact hR)
        · rw [if_neg hx] at h3; exact hinv r3 h3

/-- Claim C1: for every ClassifiedResult produced by `buildFileCoverage`
from a tally (whose Hits/Misses/Ignored are empty, as ingestion leaves
them) and a successfully read source file with `n` lines, the sequences
Hits, Misses, Ignored are pairwise disjoint, jointly exhaustive over the
line indices `0 .. n-1`, and their lengths sum to `n`. -/
theorem c1_partition (fileLines : String → Option Nat) (f : String)
    (r r2 : result) (n : Nat)
    (hh : r.Hits = []) (hm : r.Misses = []) (hi : r.Ignored = [])
    (hfl : fileLines f = some n)
    (heq : buildFileCoverage fileLines f r = some r2) :
    r2.lines = n
    ∧ r2.Hits.length + r2.Misses.length + r2.Ignored.length = n
    ∧ (∀ ln, ¬(ln ∈ r2.Hits ∧ ln ∈ r2.Misses)
        ∧ ¬(ln ∈ r2.Hits ∧ ln ∈ r2.Ignored)
        ∧ ¬(ln ∈ r2.Misses ∧ ln ∈ r2.Ignored))
    ∧ (∀ ln, ln < n → (ln ∈ r2.Hits ∨ ln ∈ r2.Misses ∨ ln ∈ r2.Ignored))
    ∧ (∀ ln, (ln ∈ r2.Hits ∨ ln ∈ r2.Misses ∨ ln ∈ r2.Ignored) → ln < n) := by
  rw [buildFileCoverage_char fileLines f r n hfl] at heq
  have hx := Option.some.inj heq
  rw [← hx, hh, hm, hi]
  simp only [List.nil_append]
  refine ⟨by trivial, ?_, ?_, ?_, ?_⟩
  · have hlen := filter_three_length r.counts (List.range n)
    rw [List.length_range] at hlen
    exact hlen
  · intro ln
    have htri := classPred_trichotomy r.counts ln
    refine ⟨?_, ?_, ?_⟩
    · rintro ⟨ha, hb⟩
      exact htri.2.1 ⟨(List.mem_filter.mp ha).2, (List.mem_filter.mp hb).2⟩
    · rintro ⟨ha, hb⟩
      exact htri.2.2.1 ⟨(List.mem_filter.mp ha).2, (List.mem_filter.mp hb).2⟩
    · rintro ⟨ha, hb⟩
      exact htri.2.2.2 ⟨(List.mem_filter.mp ha).2, (List.mem_filter.mp hb).2⟩
  · intro ln hln
    have hmem : ln ∈ List.range n := List.mem_range.mpr hln
    rcases (classPred_trichotomy r.counts ln).1 with h1 | h1 | h1
    · exact Or.inl (List.mem_filter.mpr ⟨hmem, h1⟩)
    · exact Or.inr (Or.inl (List.mem_filter.mpr ⟨hmem, h1⟩))
    · exact Or.inr (Or.inr (List.mem_filter.mpr ⟨hmem, h1⟩))
  · intro ln h1
    rcases h1 with h1 | h1 | h1
    · exact List.mem_range.mp (List.mem_filter.mp h1).1
    · exact List.mem_range.mp (List.mem_filter.mp h1).1
    · exact List.mem_range.mp (List.mem_filter.mp h1).1

/-- Witness for C1 at the concrete 3-line file and concrete tally. -/
theorem c1_partition_witness :
    (tallyW.Hits = [] ∧ tallyW.Misses = [] ∧ tallyW.Ignored = []
      ∧ flW "a.go" = some 3
      ∧ buildFileCoverage flW "a.go" tallyW = some classW)
    ∧ (classW.lines = 3
        ∧ classW.Hits.length + classW.Misses.length + classW.Ignored.length = 3
        ∧ (∀ ln, ¬(ln ∈ classW.Hits ∧ ln ∈ classW.Misses)
            ∧ ¬(ln ∈ classW.Hits ∧ ln ∈ classW.Ignored)
            ∧ ¬(ln ∈ classW.Misses ∧ ln ∈ classW.Ignored))
        ∧ (∀ ln, ln < 3 →
            (ln ∈ classW.Hits ∨ ln ∈ classW.Misses ∨ ln ∈ classW.Ignored))
        ∧ (∀ ln, (ln ∈ classW.Hits ∨ ln ∈ classW.Misses ∨ ln ∈ classW.Ignored)
            → ln < 3)) :=
  ⟨⟨rfl, rfl, rfl, rfl, rfl⟩,
    c1_partition flW "a.go" tallyW classW 3 rfl rfl rfl rfl rfl⟩

/-- Claim C2: classification assigns each line index `ln < n` to Ignored
exactly when `ln` is absent from the tally's counts, to Hits exactly when a
count is present and positive, and to Misses exactly when a count is
present and 0; each output sequence is strictly ascending. -/
theorem c2_classification (fileLines : String → Option Nat) (f : String)
    (r r2 : result) (n : Nat)
    (hh : r.Hits = []) (hm : r.Misses = []) (hi : r.Ignored = [])
    (hfl : fileLines f = some n)
    (heq : buildFileCoverage fileLines f r = some r2) :
    (∀ ln, ln < n →
      ((ln ∈ r2.Ignored ↔ r.counts ln = none)
        ∧ (ln ∈ r2.Hits ↔ ∃ k, r.counts ln = some k ∧ 0 < k)
        ∧ (ln ∈ r2.Misses ↔ r.counts ln = some 0)))
    ∧ List.Pairwise (fun a b => a < b) r2.Hits
    ∧ List.Pairwise (fun a b => a < b) r2.Misses
    ∧ List.Pairwise (fun a b => a < b) r2.Ignored := by
  rw [buildFileCoverage_char fileLines f r n hfl] at heq
  have hx := Option.some.inj heq
  rw [← hx, hh, hm, hi]
  simp only [List.nil_append]
  refine ⟨?_, (List.pairwise_lt_range n).filter _,
    (List.pairwise_lt_range n).filter _, (List.pairwise_lt_range n).filter _⟩
  intro ln hln
  have hmem : ln ∈ List.range n := List.mem_range.mpr hln
  refine ⟨⟨?_, ?_⟩, ⟨?_, ?_⟩, ⟨?_, ?_⟩⟩
  · intro hin
    have h2 := (List.mem_filter.mp hin).2
    simpa [isIgnored, Option.isNone_iff_eq_none] using h2
  · intro hnone
    exact List.mem_filter.mpr ⟨hmem, by simp [isIgnored, hnone]⟩
  · intro hin
    have h2 := (List.mem_filter.mp hin).2
    unfold isHit at h2
    cases hc : r.counts ln with
    | none => rw [hc] at h2; simp at h2
    | some k =>
      rw [hc] at h2
      refine ⟨k, rfl, ?_⟩
      simpa using h2
  · rintro ⟨k, hk, hkpos⟩
    refine List.mem_filter.mpr ⟨hmem, ?_⟩
    simp [isHit, hk, hkpos]
  · intro hin
    have h2 := (List.mem_filter.mp hin).2
    unfold isMiss at h2
    cases hc : r.counts ln with
    | none => rw [hc] at h2; simp at h2
    | some k =>
      rw [hc] at h2
      have hk0 : k = 0 := by simpa using h2
      rw [hk0]
  · intro hzero
    refine List.mem_filter.mpr ⟨hmem, ?_⟩
    simp [isMiss, hzero]

/-- Witness for C2 at the concrete 3-line file and concrete tally. -/
theorem c2_classification_witness :
    (tallyW.Hits = [] ∧ tallyW.Misses = [] ∧ tallyW.Ignored = []
      ∧ flW "a.go" = some 3
      ∧ buildFileCoverage flW "a.go" tallyW = some classW)
    ∧ ((∀ ln, ln < 3 →
        ((ln ∈ classW.Ignored ↔ tallyW.counts ln = none)
          ∧ (ln ∈ classW.Hits ↔ ∃ k, tallyW.counts ln = some k ∧ 0 < k)
          ∧ (ln ∈ classW.Misses ↔ tallyW.counts ln = some 0)))
      ∧ List.Pairwise (fun a b => a < b) classW.Hits
      ∧ List.Pairwise (fun a b => a < b) classW.Misses
      ∧ List.Pairwise (fun a b => a < b) classW.Ignored) :=
  ⟨⟨rfl, rfl, rfl, rfl, rfl⟩,
    c2_classification flW "a.go" tallyW classW 3 rfl rfl rfl rfl rfl⟩

/-- Claim C3: ingesting the same parsed profile twice into the initially
empty tally map yields, at every canonical path and line index, exactly
twice the execution count of ingesting it once (sum semantics, not max or
overwrite). -/
theorem c3_double_ingest (canon : String → Option String) (ps : List Profile)
    (rn : String) (ln : Nat) :
    countAt (ingestProfiles canon (ingestProfiles canon emptyResults ps) ps) rn ln
      = Option.map (fun c => 2 * c)
          (countAt (ingestProfiles canon emptyResults ps) rn ln) := by
  unfold countAt
  rw [ingestProfiles_char, ingestProfiles_char,
    show emptyResults rn = none from rfl]
  cases ht : profilesTouch canon ps rn with
  | false =>
    rw [entryStep_false_none _ _ _ (profilesTouch_eq_false canon ps rn ht)]
    rw [entryStep_false_none _ _ _ (profilesTouch_eq_false canon ps rn ht)]
    rfl
  | true =>
    cases hd : profilesDelta canon ps rn ln with
    | none => simp [entryStep, applyDelta, hd]
    | some k =>
      simp [entryStep, applyDelta, hd]
      omega

/-- Claim C4 counterexample: a ClassifiedResult with no hits and no misses
(a 0-line source file, every line ignored) has missFraction `0/0`, which Go
float64 division makes NaN — not the defined value 0 the claim states. -/
theorem c4_counterexample :
    resZ.HitCount = 0 ∧ resZ.MissCount = 0
    ∧ resZ.MissFraction = FloatVal.nan
    ∧ FloatVal.nan ≠ FloatVal.val 0 := by
  refine ⟨rfl, rfl, rfl, ?_⟩
  intro h
  exact FloatVal.noConfusion h

/-- Claim C4 as amended: whenever `hitCount + missCount > 0` the miss
fraction is a defined rational in `[0,1]`; when both counts are 0 it is
NaN (see the counterexample), not 0. -/
theorem c4_amended (rz : result) (h : 0 < rz.HitCount + rz.MissCount) :
    ∃ q : ℚ, rz.MissFraction = FloatVal.val q ∧ 0 ≤ q ∧ q ≤ 1 := by
  unfold result.MissFraction fdiv
  rw [if_neg (by omega : ¬(rz.HitCount + rz.MissCount = 0))]
  have hpos : (0 : ℚ) < ((rz.HitCount + rz.MissCount : Nat) : ℚ) := by
    exact_mod_cast h
  refine ⟨_, rfl, ?_, ?_⟩
  · exact div_nonneg (Nat.cast_nonneg _) (le_of_lt hpos)
  · rw [div_le_one hpos]
    exact_mod_cast Nat.le_add_left rz.MissCount rz.HitCount

/-- Witness for the amended C4 at a concrete fully-hit result. -/
theorem c4_amended_witness :
    0 < rcW.HitCount + rcW.MissCount
    ∧ ∃ q : ℚ, rcW.MissFraction = FloatVal.val q ∧ 0 ≤ q ∧ q ≤ 1 :=
  ⟨by decide, c4_amended rcW (by decide)⟩

/-- Claim C5 counterexample, refuting both guarantees the claim asserts.
Part 1 (stability/determinism): for the ranker input `[raW, rbW]` with
equal missCount keys, both the original and the swapped order satisfy the
sort contract the code relies on (`sort.Sort` is not stable), so equal-key
entries need not keep their original relative order and repeated runs need
not agree.  Part 2 (fraction monotonicity): the input
`[rcW, rnanW, raW]` — fractions `0`, NaN, `1` — is itself a valid output
of the percentage sort, because every comparison against the NaN entry is
false; its defined fractions appear in strictly increasing order, so the
byMissFractionDesc ordering is not non-increasing in missFraction once an
undefined (0/0) fraction is present. -/
theorem c5_counterexample :
    (raW.MissCount = rbW.MissCount
      ∧ linesSortSpec [raW, rbW] [rbW, raW]
      ∧ linesSortSpec [raW, rbW] [raW, rbW]
      ∧ ([rbW, raW] : List result) ≠ [raW, rbW])
    ∧ (rnanW.MissFraction = FloatVal.nan
      ∧ rcW.MissFraction = FloatVal.val 0
      ∧ raW.MissFraction = FloatVal.val 1
      ∧ pctSortSpec [rcW, rnanW, raW] [rcW, rnanW, raW]
      ∧ ¬ List.Pairwise (fun a b => fracQ b ≤ fracQ a) [rcW, rnanW, raW]) := by
  have hfc : rcW.MissFraction = FloatVal.val 0 := by
    simp [rcW, result.MissFraction, result.MissCount, result.HitCount, fdiv]
  have hfa : raW.MissFraction = FloatVal.val 1 := by
    simp [raW, result.MissFraction, result.MissCount, result.HitCount, fdiv]
  have hfn : rnanW.MissFraction = FloatVal.nan := rfl
  refine ⟨⟨rfl, ⟨List.Perm.swap rbW raW [], ?_⟩,
    ⟨List.Perm.refl _, ?_⟩, ?_⟩,
    hfn, hfc, hfa, ⟨List.Perm.refl _, ?_⟩, ?_⟩
  · rw [List.chain'_cons]
    exact ⟨by decide, List.chain'_singleton _⟩
  · rw [List.chain'_cons]
    exact ⟨by decide, List.chain'_singleton _⟩
  · intro h
    have h2 : rbW.filename = raW.filename :=
      congrArg (fun l => (l.headD (emptyResult "x")).filename) h
    rw [show rbW.filename = "b.go" from rfl,
      show raW.filename = "a.go" from rfl] at h2
    exact absurd h2 (by decide)
  · rw [List.chain'_cons, List.chain'_cons]
    refine ⟨?_, ?_, List.chain'_singleton _⟩
    · rw [hfc, hfn]
      rfl
    · rw [hfn, hfa]
      rfl
  · intro h
    have h2 := (List.pairwise_cons.mp h).1 raW (by simp)
    have ha1 : fracQ raW = 1 := by simp [fracQ, hfa]
    have hc0 : fracQ rcW = 0 := by simp [fracQ, hfc]
    rw [ha1, hc0] at h2
    exact absurd h2 (by norm_num)

/-- Claim C5 as amended: any outputs satisfying the two sort contracts are
non-increasing in the respective keys (the fraction ordering on inputs
whose miss fractions are all defined values); preservation of equal-key
input order and cross-run determinism are not guaranteed (see the
counterexample). -/
theorem c5_amended (input out1 out2 : List result)
    (h1 : linesSortSpec input out1) (h2 : pctSortSpec input out2)
    (hval : ∀ x ∈ input, ∃ q, x.MissFraction = FloatVal.val q) :
    List.Pairwise (fun a b => b.MissCount ≤ a.MissCount) out1
    ∧ List.Pairwise (fun a b => fracQ b ≤ fracQ a) out2 := by
  constructor
  · have hch : List.Chain' (fun a b => result.MissCount b ≤ result.MissCount a) out1 :=
      h1.2.imp (fun a b hab => Nat.le_of_not_lt hab)
    exact chainLe_pairwise result.MissCount out1 hch
  · have hval2 : ∀ x ∈ out2, ∃ q, x.MissFraction = FloatVal.val q :=
      fun x hx => hval x (h2.1.mem_iff.mpr hx)
    exact chainLe_pairwise fracQ out2 (chainFlt_to_le out2 hval2 h2.2)

/-- Witness for the amended C5 at a concrete one-element ranking. -/
theorem c5_amended_witness :
    (linesSortSpec [rcW] [rcW] ∧ pctSortSpec [rcW] [rcW]
      ∧ ∀ x ∈ [rcW], ∃ q, x.MissFraction = FloatVal.val q)
    ∧ (List.Pairwise (fun a b => b.MissCount ≤ a.MissCount) [rcW]
      ∧ List.Pairwise (fun a b => fracQ b ≤ fracQ a) [rcW]) := by
  have hval : ∀ x ∈ [rcW], ∃ q, x.MissFraction = FloatVal.val q := by
    intro x hx
    have hxe : x = rcW := by simpa using hx
    rw [hxe]
    exact ⟨_, rfl⟩
  have h1 : linesSortSpec [rcW] [rcW] := ⟨List.Perm.refl _, List.chain'_singleton _⟩
  have h2 : pctSortSpec [rcW] [rcW] := ⟨List.Perm.refl _, List.chain'_singleton _⟩
  exact ⟨⟨h1, h2, hval⟩, c5_amended [rcW] [rcW] [rcW] h1 h2 hval⟩

/-- Claim C6 (code bug): with one available row and limit 2, the row loop
of `printHitlist` indexes `rps[1]` out of range and panics (modelled as
`none`), instead of emitting `min(limit, rows) = 1` rows as claimed. -/
theorem c6_limit_out_of_range :
    hitlistRows [(raW, rbW)] 2 = none
    ∧ min 2 (List.length [(raW, rbW)]) = 1 := ⟨rfl, rfl⟩

/-- Claim C7: when the line-count oracle fails for path `f`, the
classification loop removes `f`'s entry entirely (no partially classified
result survives), and every other key in the loop is classified exactly as
`(R g).bind (buildFileCoverage fileLines g)`, unaffected by the failure. -/
theorem c7_failed_file_dropped (fileLines : String → Option Nat)
    (keys : List String) (R : String → Option result) (f : String)
    (hnd : keys.Nodup) (hf : f ∈ keys) (hfail : fileLines f = none) :
    classifyLoop fileLines R keys f = none
    ∧ ∀ g, g ≠ f → g ∈ keys →
        classifyLoop fileLines R keys g
          = (R g).bind (buildFileCoverage fileLines g) := by
  constructor
  · rw [classifyLoop_char fileLines keys R hnd f, if_pos hf]
    cases hR : R f with
    | none => rfl
    | some r =>
      show buildFileCoverage fileLines f r = none
      unfold buildFileCoverage
      rw [hfail]
  · intro g hg hmem
    rw [classifyLoop_char fileLines keys R hnd g, if_pos hmem]

/-- Witness for C7: "bad.go" is unreadable, "ok.go" classifies normally. -/
theorem c7_failed_file_dropped_witness :
    ((["bad.go", "ok.go"] : List String).Nodup
      ∧ "bad.go" ∈ (["bad.go", "ok.go"] : List String)
      ∧ flE "bad.go" = none)
    ∧ (classifyLoop flE mapE ["bad.go", "ok.go"] "bad.go" = none
      ∧ ∀ g, g ≠ "bad.go" → g ∈ (["bad.go", "ok.go"] : List String) →
          classifyLoop flE mapE ["bad.go", "ok.go"] g
            = (mapE g).bind (buildFileCoverage flE g)) :=
  ⟨⟨by decide, by decide, rfl⟩,
    c7_failed_file_dropped flE ["bad.go", "ok.go"] mapE "bad.go"
      (by decide) (by decide) rfl⟩

/-- Claim C8: ingesting the coverage files in any order (any permutation of
the path list) yields the same final results map, and hence the same
classified context, when every block canonicalizes successfully. -/
theorem c8_order_invariant (parse : String → Option (List Profile))
    (canon : String → Option String) (fileLines : String → Option Nat)
    (now : Int) (fps fps2 keys : List String)
    (hperm : fps.Perm fps2)
    (hcanon : ∀ fp ∈ fps, ∀ ps, parse fp = some ps →
        ∀ p ∈ ps, (canon p.fileName).isSome) :
    ingestAll parse canon emptyResults fps
        = ingestAll parse canon emptyResults fps2
    ∧ collectCoverageContext parse canon fileLines now fps keys
        = collectCoverageContext parse canon fileLines now fps2 keys := by
  have hmain : ingestAll parse canon emptyResults fps
      = ingestAll parse canon emptyResults fps2 := by
    funext rn
    rw [ingestAll_char, ingestAll_char, filesTouch_perm parse canon hperm rn]
    have hd : (fun ln => filesDelta parse canon fps rn ln)
        = fun ln => filesDelta parse canon fps2 rn ln :=
      funext (fun ln => filesDelta_perm parse canon hperm rn ln)
    rw [hd]
  refine ⟨hmain, ?_⟩
  unfold collectCoverageContext
  rw [hmain]

/-- Witness for C8: two one-profile coverage files ingested in both orders. -/
theorem c8_order_invariant_witness :
    ((["cov1", "cov2"] : List String).Perm ["cov2", "cov1"]
      ∧ (∀ fp ∈ (["cov1", "cov2"] : List String), ∀ ps, parseW fp = some ps →
          ∀ p ∈ ps, (canonW p.fileName).isSome))
    ∧ (ingestAll parseW canonW emptyResults ["cov1", "cov2"]
          = ingestAll parseW canonW emptyResults ["cov2", "cov1"]
      ∧ collectCoverageContext parseW canonW flW 0 ["cov1", "cov2"] ["m.go", "n.go"]
          = collectCoverageContext parseW canonW flW 0 ["cov2", "cov1"] ["m.go", "n.go"]) := by
  have hperm : (["cov1", "cov2"] : List String).Perm ["cov2", "cov1"] :=
    List.Perm.swap "cov2" "cov1" []
  have hcanon : ∀ fp ∈ (["cov1", "cov2"] : List String), ∀ ps, parseW fp = some ps →
      ∀ p ∈ ps, (canonW p.fileName).isSome := by
    intro fp _ ps _ p _
    rfl
  exact ⟨⟨hperm, hcanon⟩,
    c8_order_invariant parseW canonW flW 0 ["cov1", "cov2"] ["cov2", "cov1"]
      ["m.go", "n.go"] hperm hcanon⟩

/-- Claim C9: every entry of the results map built by ingestion from the
empty map stores its own key as `filename`, and the classification loop
preserves this. -/
theorem c9_filename_key (parse : String → Option (List Profile))
    (canon : String → Option String) (fileLines : String → Option Nat)
    (fps keys : List String) (rn : String) :
    (∀ r, ingestAll parse canon emptyResults fps rn = some r → r.filename = rn)
    ∧ (∀ r2, classifyLoop fileLines (ingestAll parse canon emptyResults fps) keys rn
          = some r2 → r2.filename = rn) := by
  have hing : ∀ r, ingestAll parse canon emptyResults fps rn = some r →
      r.filename = rn := by
    intro r h
    rw [ingestAll_char, show emptyResults rn = none from rfl] at h
    cases ht : filesTouch parse canon fps rn with
    | false =>
      rw [ht] at h
      simp [entryStep] at h
    | true =>
      rw [ht] at h
      have hred : entryStep rn true (fun ln => filesDelta parse canon fps rn ln) none
          = some { emptyResult rn with
                   counts := fun ln => applyDelta none (filesDelta parse canon fps rn ln) } := rfl
      rw [hred] at h
      have h3 := Option.some.inj h
      rw [← h3]
      rfl
  exact ⟨hing, fun r2 h =>
    classifyLoop_filename fileLines keys _ rn hing r2 h⟩

/-- Witness for C9: the entry created for "m.go" carries filename "m.go". -/
theorem c9_filename_key_witness :
    ((ingestAll parseW canonW emptyResults ["cov1"] "m.go").getD
        (emptyResult "x")).filename = "m.go" :=
  (c9_filename_key parseW canonW flW ["cov1"] [] "m.go").1 _ rfl

/-- Claim C10: with a readable n-line source file, classification succeeds
(no error), leaves the counts map unchanged, and a count stored at any
index `>= n` (for example from a block reaching past the end of the file)
appears in none of Hits, Misses, Ignored. -/
theorem c10_out_of_range_silent (fileLines : String → Option Nat) (f : String)
    (r : result) (n : Nat)
    (hh : r.Hits = []) (hm : r.Misses = []) (hi : r.Ignored = [])
    (hfl : fileLines f = some n) :
    (buildFileCoverage fileLines f r).isSome = true
    ∧ ∀ r2, buildFileCoverage fileLines f r = some r2 →
        (r2.counts = r.counts
          ∧ ∀ ln, n ≤ ln → (ln ∉ r2.Hits ∧ ln ∉ r2.Misses ∧ ln ∉ r2.Ignored)) := by
  rw [buildFileCoverage_char fileLines f r n hfl]
  refine ⟨rfl, ?_⟩
  intro r2 h
  have hx := Option.some.inj h
  rw [← hx, hh, hm, hi]
  simp only [List.nil_append]
  refine ⟨by trivial, ?_⟩
  intro ln hln
  have hnot : ln ∉ List.range n := by
    simp only [List.mem_range]
    omega
  exact ⟨fun hc => hnot (List.mem_filter.mp hc).1,
    fun hc => hnot (List.mem_filter.mp hc).1,
    fun hc => hnot (List.mem_filter.mp hc).1⟩

/-- Witness for C10: `tallyW` stores a count at line 5 of a 3-line file. -/
theorem c10_out_of_range_silent_witness :
    (tallyW.Hits = [] ∧ tallyW.Misses = [] ∧ tallyW.Ignored = []
      ∧ flW "a.go" = some 3 ∧ tallyW.counts 5 = some 7)
    ∧ ((buildFileCoverage flW "a.go" tallyW).isSome = true
      ∧ (classW.counts = tallyW.counts
        ∧ ∀ ln, 3 ≤ ln → (ln ∉ classW.Hits ∧ ln ∉ classW.Misses ∧ ln ∉ classW.Ignored))) :=
  ⟨⟨rfl, rfl, rfl, rfl, rfl⟩,
    ⟨(c10_out_of_range_silent flW "a.go" tallyW 3 rfl rfl rfl rfl).1,
      (c10_out_of_range_silent flW "a.go" tallyW 3 rfl rfl rfl rfl).2 classW rfl⟩⟩
